import Mathlib

/-!
Shallow embedding of the transaction/bundle core of iota.lib.py
(src/iota/transaction/base.py).

The ternary codec and the tryte-string collaborators (iota.trits,
iota.types) are not part of the source tree; they are modelled from the
specification (sections 4.1, 4.2 and 6 of the spec).

A tryte is a group of three balanced-ternary digits (trits); tryte
strings are modelled as lists of trits, so a Python tryte offset k
corresponds to trit offset 3 * k and the 2673-tryte wire body is a list
of 8019 trits.  Field boundaries always fall on tryte boundaries, so
nothing is lost by working at trit granularity.
-/

/-- A balanced-ternary digit: -1, 0 or 1. -/
def isTrit (t : Int) : Prop := t = -1 ∨ t = 0 ∨ t = 1

instance (t : Int) : Decidable (isTrit t) := by
  unfold isTrit; infer_instance

/-- Modelled from the spec: iota.trits.int_from_trits (missing from src/)
decodes a little-endian balanced-ternary digit sequence to a signed
integer. -/
def int_from_trits (trits : List Int) : Int :=
  trits.foldr (fun d acc => d + 3 * acc) 0

/-- The least-significant balanced-ternary digit of an integer. -/
def balancedDigit (v : Int) : Int := if v % 3 = 2 then -1 else v % 3

/-- Modelled from the spec: iota.trits.trits_from_int (missing from src/)
encodes a signed integer into exactly pad balanced-ternary digits, zero
padded at the high end, failing (RangeError, modelled as none) if the
magnitude does not fit in pad digits. -/
def trits_from_int (v : Int) (pad : Nat) : Option (List Int) :=
  match pad with
  | 0 => if v = 0 then some [] else none
  | n + 1 =>
      (trits_from_int ((v - balancedDigit v) / 3) n).map
        (fun rest => balancedDigit v :: rest)

/-- Python slicing l[a:b] on a list (the end index clamps to the length). -/
def pySlice {α : Type} (l : List α) (a b : Nat) : List α :=
  (l.drop a).take (b - a)

theorem pySlice_append {α : Type} (l : List α) (a b c : Nat)
    (hab : a ≤ b) (hbc : b ≤ c) :
    pySlice l a b ++ pySlice l b c = pySlice l a c := by
  unfold pySlice
  have hdrop : l.drop b = (l.drop a).drop (b - a) := by
    rw [List.drop_drop]
    congr 1
    omega
  rw [hdrop, ← List.take_add]
  congr 1
  omega

theorem length_pySlice {α : Type} (l : List α) {a b : Nat}
    (hb : b ≤ l.length) : (pySlice l a b).length = b - a := by
  unfold pySlice
  rw [List.length_take, List.length_drop]
  omega

theorem mem_pySlice {α : Type} {l : List α} {a b : Nat} {x : α}
    (h : x ∈ pySlice l a b) : x ∈ l := by
  unfold pySlice at h
  exact List.mem_of_mem_drop (List.mem_of_mem_take h)

theorem pySlice_full {α : Type} (l : List α) : pySlice l 0 l.length = l := by
  unfold pySlice
  simp

/-- Decoding the balanced-ternary value of a trit sequence and re-encoding
it at the sequence's own width reproduces the sequence. -/
theorem trits_roundtrip (ts : List Int) (h : ∀ t ∈ ts, isTrit t) :
    trits_from_int (int_from_trits ts) ts.length = some ts := by
  induction ts with
  | nil => simp [int_from_trits, trits_from_int]
  | cons t ts ih =>
      have ht : isTrit t := h t (by simp)
      have hts : ∀ x ∈ ts, isTrit x := fun x hx => h x (by simp [hx])
      have hv : int_from_trits (t :: ts) = t + 3 * int_from_trits ts := rfl
      have hd : balancedDigit (t + 3 * int_from_trits ts) = t := by
        have hmod : (t + 3 * int_from_trits ts) % 3 = t % 3 :=
          Int.add_mul_emod_self_left t 3 (int_from_trits ts)
        rcases ht with h1 | h1 | h1 <;> subst h1 <;>
          simp [balancedDigit, hmod]
      have hq : (t + 3 * int_from_trits ts - t) / 3 = int_from_trits ts := by
        have : t + 3 * int_from_trits ts - t = 3 * int_from_trits ts := by ring
        rw [this]
        exact Int.mul_ediv_cancel_left _ (by norm_num)
      rw [hv, List.length_cons]
      unfold trits_from_int
      rw [hd, hq, ih hts]
      rfl

/-- Wire length of a transaction body in trits (2673 trytes). -/
def TRANSACTION_TRIT_LEN : Nat := 8019

/-- Modelled from the spec: the TransactionTrytes wrapper
(iota.transaction.types, missing from src/) accepts only bodies of
exactly 2673 trytes; anything else is an InvalidLength failure,
modelled as none. -/
def transactionTrytes (l : List Int) : Option (List Int) :=
  if l.length = TRANSACTION_TRIT_LEN then some l else none

/-- A transaction that has been attached to the Tangle
(Transaction.__init__ in the source).  Tryte-string fields are lists of
trits; the optional transaction hash and the optional explicit legacy
tag are Option values (the spec models presence as an explicit
optional); is_confirmed is the externally-set tri-state confirmation
flag, initialised to none by the constructor. -/
structure Transaction where
  hash : Option (List Int)
  signature_message_fragment : List Int
  address : List Int
  value : Int
  timestamp : Int
  current_index : Int
  last_index : Int
  bundle_hash : List Int
  trunk_transaction_hash : List Int
  branch_transaction_hash : List Int
  tag : List Int
  attachment_timestamp : Int
  attachment_timestamp_lower_bound : Int
  attachment_timestamp_upper_bound : Int
  nonce : List Int
  _legacy_tag : Option (List Int) := none
  is_confirmed : Option Bool := none
deriving Repr, DecidableEq

/-- Transaction.is_tail: whether current_index == 0. -/
def Transaction.is_tail (tx : Transaction) : Bool :=
  tx.current_index = 0

/-- Transaction.legacy_tag: the explicit legacy tag if set, else tag. -/
def Transaction.legacy_tag (tx : Transaction) : List Int :=
  tx._legacy_tag.getD tx.tag

/-- Transaction.value_as_trytes: value re-encoded at 81 trits. -/
def Transaction.value_as_trytes (tx : Transaction) : Option (List Int) :=
  trits_from_int tx.value 81

/-- Transaction.timestamp_as_trytes: timestamp re-encoded at 27 trits. -/
def Transaction.timestamp_as_trytes (tx : Transaction) : Option (List Int) :=
  trits_from_int tx.timestamp 27

/-- Transaction.current_index_as_trytes: current_index at 27 trits. -/
def Transaction.current_index_as_trytes (tx : Transaction) : Option (List Int) :=
  trits_from_int tx.current_index 27

/-- Transaction.last_index_as_trytes: last_index at 27 trits. -/
def Transaction.last_index_as_trytes (tx : Transaction) : Option (List Int) :=
  trits_from_int tx.last_index 27

/-- Transaction.attachment_timestamp_as_trytes: at 27 trits. -/
def Transaction.attachment_timestamp_as_trytes (tx : Transaction) :
    Option (List Int) :=
  trits_from_int tx.attachment_timestamp 27

/-- Transaction.attachment_timestamp_lower_bound_as_trytes: at 27 trits. -/
def Transaction.attachment_timestamp_lower_bound_as_trytes (tx : Transaction) :
    Option (List Int) :=
  trits_from_int tx.attachment_timestamp_lower_bound 27

/-- Transaction.attachment_timestamp_upper_bound_as_trytes: at 27 trits. -/
def Transaction.attachment_timestamp_upper_bound_as_trytes (tx : Transaction) :
    Option (List Int) :=
  trits_from_int tx.attachment_timestamp_upper_bound 27

/-- Transaction.as_tryte_string: reassembles the 2673-tryte wire body by
concatenating the fields in wire order, re-encoding each numeric field
at its fixed pad width; a codec RangeError propagates as none.  Note
that the legacy_tag accessor (with its fallback to tag), not the raw
stored value, is what the source concatenates. -/
def Transaction.as_tryte_string (tx : Transaction) : Option (List Int) := do
  let v ← tx.value_as_trytes
  let ts ← tx.timestamp_as_trytes
  let ci ← tx.current_index_as_trytes
  let li ← tx.last_index_as_trytes
  let at0 ← tx.attachment_timestamp_as_trytes
  let atl ← tx.attachment_timestamp_lower_bound_as_trytes
  let atu ← tx.attachment_timestamp_upper_bound_as_trytes
  transactionTrytes
    (tx.signature_message_fragment ++ tx.address ++ v ++ tx.legacy_tag
      ++ ts ++ ci ++ li ++ tx.bundle_hash ++ tx.trunk_transaction_hash
      ++ tx.branch_transaction_hash ++ tx.tag ++ at0 ++ atl ++ atu
      ++ tx.nonce)

/-- Transaction.get_signature_validation_trytes: the values needed to
validate the transaction's signature_message_fragment. -/
def Transaction.get_signature_validation_trytes (tx : Transaction) :
    Option (List Int) := do
  let v ← tx.value_as_trytes
  let ts ← tx.timestamp_as_trytes
  let ci ← tx.current_index_as_trytes
  let li ← tx.last_index_as_trytes
  some (tx.address ++ v ++ tx.legacy_tag ++ ts ++ ci ++ li)

/-- Transaction.from_tryte_string: slices a 2673-tryte body into fields.
Offsets here are in trits, three times the tryte offsets of the source.
The Curl sponge is an external collaborator, passed in as the function
curl from the full body to the derived hash; it is consulted only when
no hash is supplied. -/
def Transaction.from_tryte_string (curl : List Int → List Int)
    (trytes : List Int) (hash_ : Option (List Int)) : Option Transaction :=
  match transactionTrytes trytes with
  | none => none
  | some ts =>
      some {
        hash := some (match hash_ with
          | some h => h
          | none => curl ts)
        signature_message_fragment := pySlice ts 0 6561
        address := pySlice ts 6561 6804
        value := int_from_trits (pySlice ts 6804 6885)
        _legacy_tag := some (pySlice ts 6885 6966)
        timestamp := int_from_trits (pySlice ts 6966 6993)
        current_index := int_from_trits (pySlice ts 6993 7020)
        last_index := int_from_trits (pySlice ts 7020 7047)
        bundle_hash := pySlice ts 7047 7290
        trunk_transaction_hash := pySlice ts 7290 7533
        branch_transaction_hash := pySlice ts 7533 7776
        tag := pySlice ts 7776 7857
        attachment_timestamp := int_from_trits (pySlice ts 7857 7884)
        attachment_timestamp_lower_bound :=
          int_from_trits (pySlice ts 7884 7911)
        attachment_timestamp_upper_bound :=
          int_from_trits (pySlice ts 7911 7938)
        nonce := pySlice ts 7938 8019
        is_confirmed := none
      }

theorem roundtrip_pySlice {b : List Int} (hval : ∀ t ∈ b, isTrit t)
    (a c : Nat) (hc : c ≤ b.length) :
    trits_from_int (int_from_trits (pySlice b a c)) (c - a) =
      some (pySlice b a c) := by
  have hv : ∀ t ∈ pySlice b a c, isTrit t := fun t ht => hval t (mem_pySlice ht)
  have h := trits_roundtrip (pySlice b a c) hv
  rwa [length_pySlice b hc] at h

/-- Claim C1: for every syntactically valid 2673-tryte body b (modelled as
8019 valid trits), re-encoding the transaction decoded from b reproduces b
exactly, whatever hash is supplied or derived: the hash takes no part in
the round trip. -/
theorem c1_decode_encode_roundtrip (curl : List Int → List Int)
    (b : List Int) (hash_ : Option (List Int))
    (hlen : b.length = TRANSACTION_TRIT_LEN) (hval : ∀ t ∈ b, isTrit t) :
    (Transaction.from_tryte_string curl b hash_).bind
      Transaction.as_tryte_string = some b := by
  have hlen' : b.length = 8019 := hlen
  have hguard : transactionTrytes b = some b := by
    simp [transactionTrytes, TRANSACTION_TRIT_LEN, hlen']
  have hv81 := roundtrip_pySlice hval 6804 6885 (by omega)
  have hts27 := roundtrip_pySlice hval 6966 6993 (by omega)
  have hci27 := roundtrip_pySlice hval 6993 7020 (by omega)
  have hli27 := roundtrip_pySlice hval 7020 7047 (by omega)
  have hat27 := roundtrip_pySlice hval 7857 7884 (by omega)
  have hatl27 := roundtrip_pySlice hval 7884 7911 (by omega)
  have hatu27 := roundtrip_pySlice hval 7911 7938 (by omega)
  norm_num at hv81 hts27 hci27 hli27 hat27 hatl27 hatu27
  have hcat : pySlice b 0 6561 ++ pySlice b 6561 6804 ++ pySlice b 6804 6885
      ++ pySlice b 6885 6966 ++ pySlice b 6966 6993 ++ pySlice b 6993 7020
      ++ pySlice b 7020 7047 ++ pySlice b 7047 7290 ++ pySlice b 7290 7533
      ++ pySlice b 7533 7776 ++ pySlice b 7776 7857 ++ pySlice b 7857 7884
      ++ pySlice b 7884 7911 ++ pySlice b 7911 7938 ++ pySlice b 7938 8019
      = b := by
    rw [pySlice_append b 0 6561 6804 (by norm_num) (by norm_num)]
    rw [pySlice_append b 0 6804 6885 (by norm_num) (by norm_num)]
    rw [pySlice_append b 0 6885 6966 (by norm_num) (by norm_num)]
    rw [pySlice_append b 0 6966 6993 (by norm_num) (by norm_num)]
    rw [pySlice_append b 0 6993 7020 (by norm_num) (by norm_num)]
    rw [pySlice_append b 0 7020 7047 (by norm_num) (by norm_num)]
    rw [pySlice_append b 0 7047 7290 (by norm_num) (by norm_num)]
    rw [pySlice_append b 0 7290 7533 (by norm_num) (by norm_num)]
    rw [pySlice_append b 0 7533 7776 (by norm_num) (by norm_num)]
    rw [pySlice_append b 0 7776 7857 (by norm_num) (by norm_num)]
    rw [pySlice_append b 0 7857 7884 (by norm_num) (by norm_num)]
    rw [pySlice_append b 0 7884 7911 (by norm_num) (by norm_num)]
    rw [pySlice_append b 0 7911 7938 (by norm_num) (by norm_num)]
    rw [pySlice_append b 0 7938 8019 (by norm_num) (by norm_num)]
    rw [← hlen']
    exact pySlice_full b
  unfold Transaction.from_tryte_string
  rw [hguard]
  simp only [Option.some_bind]
  simp only [Transaction.as_tryte_string, Transaction.value_as_trytes,
    Transaction.timestamp_as_trytes, Transaction.current_index_as_trytes,
    Transaction.last_index_as_trytes, Transaction.attachment_timestamp_as_trytes,
    Transaction.attachment_timestamp_lower_bound_as_trytes,
    Transaction.attachment_timestamp_upper_bound_as_trytes,
    Transaction.legacy_tag, Option.getD]
  simp only [hv81, hts27, hci27, hli27, hat27, hatl27, hatu27,
    Option.bind_eq_bind, Option.some_bind]
  rw [hcat]
  exact hguard

/-- Claim C1 witness: the round trip evaluated on the all-zero body with a
supplied hash. -/
theorem c1_decode_encode_roundtrip_witness :
    (Transaction.from_tryte_string (fun _ => []) (List.replicate 8019 0)
      (some [])).bind Transaction.as_tryte_string =
      some (List.replicate 8019 0) :=
  c1_decode_encode_roundtrip (fun _ => []) (List.replicate 8019 0) (some [])
    (by rw [List.length_replicate, TRANSACTION_TRIT_LEN])
    (fun t ht => by rw [List.eq_of_mem_replicate ht]; simp [isTrit])

/-- The sort key of Bundle construction: ascending current_index (the
attrgetter sort key in Bundle.__init__). -/
def leByCurrentIndex (a b : Transaction) : Bool :=
  a.current_index ≤ b.current_index

/-- A collection of transactions, treated as an atomic unit when attached
to the Tangle (class Bundle in the source). -/
structure Bundle where
  transactions : List Transaction
  _is_confirmed : Option Bool

/-- Bundle.__init__: sorts the given transactions ascending by
current_index (Python sorted is a stable sort, modelled by the stable
mergeSort) and owns the result; the confirmation flag starts unset. -/
def Bundle.init (txs : List Transaction) : Bundle :=
  { transactions := txs.mergeSort leByCurrentIndex
    _is_confirmed := none }

theorem leByCurrentIndex_trans (a b c : Transaction)
    (h1 : leByCurrentIndex a b = true) (h2 : leByCurrentIndex b c = true) :
    leByCurrentIndex a c = true := by
  simp only [leByCurrentIndex, decide_eq_true_eq] at h1 h2 ⊢
  omega

theorem leByCurrentIndex_total (a b : Transaction) :
    (leByCurrentIndex a b || leByCurrentIndex b a) = true := by
  simp only [leByCurrentIndex, Bool.or_eq_true, decide_eq_true_eq]
  omega

/-- Claim C3: constructing a Bundle from any finite list of transactions
produces an owned sequence pairwise ordered ascending by current_index,
and for every key the subsequence of transactions having that
current_index equals the corresponding subsequence of the input, in
input order (stable sort). -/
theorem c3_bundle_sorted_stable (txs : List Transaction) :
    List.Pairwise (fun a b => a.current_index ≤ b.current_index)
        (Bundle.init txs).transactions
    ∧ ∀ k : Int,
        (Bundle.init txs).transactions.filter
            (fun t => t.current_index = k) =
          txs.filter (fun t => t.current_index = k) := by
  constructor
  · have h := List.sorted_mergeSort leByCurrentIndex_trans
      leByCurrentIndex_total txs
    exact h.imp (fun hab => by
      simpa [leByCurrentIndex, decide_eq_true_eq] using hab)
  · intro k
    set p : Transaction → Bool := fun t => t.current_index = k with hp
    have hsub : (txs.filter p).Sublist txs := List.filter_sublist txs
    have hpw : List.Pairwise (fun a b => leByCurrentIndex a b = true)
        (txs.filter p) := by
      apply List.pairwise_of_forall_mem_list
      intro a ha b hb
      have ha' := (List.mem_filter.mp ha).2
      have hb' := (List.mem_filter.mp hb).2
      simp only [hp, decide_eq_true_eq] at ha' hb'
      simp only [leByCurrentIndex, decide_eq_true_eq, ha', hb', le_refl]
    have hstable : (txs.filter p).Sublist (txs.mergeSort leByCurrentIndex) :=
      List.sublist_mergeSort leByCurrentIndex_trans leByCurrentIndex_total
        hpw hsub
    have hsub2 : (txs.filter p).Sublist
        ((txs.mergeSort leByCurrentIndex).filter p) := by
      have := List.Sublist.filter p hstable
      rwa [List.filter_filter, show (fun a => p a && p a) = p from by
        funext a; cases p a <;> rfl] at this
    have hperm : ((txs.mergeSort leByCurrentIndex).filter p).Perm
        (txs.filter p) :=
      List.Perm.filter p (List.mergeSort_perm txs leByCurrentIndex)
    exact (hsub2.eq_of_length hperm.length_eq.symm).symm

/-- The loop of Bundle.group_transactions: walks the remaining
transactions, extending the current group while the address matches the
previous transaction and starting a new group otherwise; the finished
current group is appended at the end (the source guards on it being
non-empty). -/
def groupLoop : List Transaction → Transaction → List Transaction →
    List (List Transaction) → List (List Transaction)
  | [], _, current, groups =>
      if current.isEmpty then groups else groups ++ [current]
  | t :: rest, last, current, groups =>
      if t.address = last.address then
        groupLoop rest t (current ++ [t]) groups
      else
        groupLoop rest t [t] (groups ++ [current])

/-- Bundle.group_transactions: groups the bundle's transactions by
address into contiguous runs, starting from the tail transaction. -/
def Bundle.group_transactions (b : Bundle) : List (List Transaction) :=
  match b.transactions with
  | [] => []
  | t :: rest => groupLoop rest t [t] []

theorem groupLoop_flatten (rest : List Transaction) :
    ∀ last current groups, current ≠ [] →
      (groupLoop rest last current groups).flatten =
        groups.flatten ++ current ++ rest := by
  induction rest with
  | nil =>
      intro last current groups hne
      simp [groupLoop, List.isEmpty_iff, hne]
  | cons t rest ih =>
      intro last current groups hne
      unfold groupLoop
      by_cases h : t.address = last.address
      · rw [if_pos h, ih t (current ++ [t]) groups (by simp)]
        simp
      · rw [if_neg h, ih t [t] (groups ++ [current]) (by simp)]
        simp

/-- The predicate a finished address group satisfies: non-empty and all
members sharing one address. -/
def GoodGroup (g : List Transaction) : Prop :=
  g ≠ [] ∧ ∀ x ∈ g, ∀ y ∈ g, x.address = y.address

theorem groupLoop_good (rest : List Transaction) :
    ∀ last current groups,
      (∀ g ∈ groups, GoodGroup g) →
      current ≠ [] →
      (∀ x ∈ current, x.address = last.address) →
      ∀ g ∈ groupLoop rest last current groups, GoodGroup g := by
  induction rest with
  | nil =>
      intro last current groups hgs hne hcur
      simp only [groupLoop, List.isEmpty_iff, if_neg hne]
      intro g hg
      rcases List.mem_append.mp hg with h | h
      · exact hgs g h
      · rcases List.mem_singleton.mp h with rfl
        refine ⟨hne, fun x hx y hy => ?_⟩
        rw [hcur x hx, hcur y hy]
  | cons t rest ih =>
      intro last current groups hgs hne hcur
      unfold groupLoop
      by_cases h : t.address = last.address
      · rw [if_pos h]
        refine ih t (current ++ [t]) groups hgs (by simp) ?_
        intro x hx
        rcases List.mem_append.mp hx with hx' | hx'
        · rw [hcur x hx', ← h]
        · rcases List.mem_singleton.mp hx' with rfl
          rfl
      · rw [if_neg h]
        refine ih t [t] (groups ++ [current]) ?_ (by simp) (by simp)
        intro g hg
        rcases List.mem_append.mp hg with h' | h'
        · exact hgs g h'
        · rcases List.mem_singleton.mp h' with rfl
          refine ⟨hne, fun x hx y hy => ?_⟩
          rw [hcur x hx, hcur y hy]

theorem head?_append_left {α : Type} (l l' : List α) (h : l ≠ []) :
    (l ++ l').head? = l.head? := by
  cases l with
  | nil => exact absurd rfl h
  | cons a as => rfl

/-- The relation between adjacent groups: the last transaction of the
left group and the first of the right group carry different addresses. -/
def BoundaryNe (g h : List Transaction) : Prop :=
  ∀ x y, g.getLast? = some x → h.head? = some y → x.address ≠ y.address

theorem groupLoop_chain (rest : List Transaction) :
    ∀ last current groups,
      current.getLast? = some last →
      List.Chain' BoundaryNe (groups ++ [current]) →
      List.Chain' BoundaryNe (groupLoop rest last current groups) := by
  induction rest with
  | nil =>
      intro last current groups hlast hchain
      have hne : current ≠ [] := by
        intro h; rw [h] at hlast; simp at hlast
      simpa [groupLoop, List.isEmpty_iff, hne] using hchain
  | cons t rest ih =>
      intro last current groups hlast hchain
      have hne : current ≠ [] := by
        intro h; rw [h] at hlast; simp at hlast
      unfold groupLoop
      by_cases h : t.address = last.address
      · rw [if_pos h]
        refine ih t (current ++ [t]) groups (List.getLast?_concat current) ?_
        rw [List.chain'_append] at hchain ⊢
        refine ⟨hchain.1, List.chain'_singleton _, ?_⟩
        intro x hx y hy
        simp only [List.head?_cons, Option.mem_def, Option.some_inj] at hy
        subst hy
        have hR : BoundaryNe x current := hchain.2.2 x hx current (by simp)
        intro p q hp hq
        rw [head?_append_left current [t] hne] at hq
        exact hR p q hp hq
      · rw [if_neg h]
        refine ih t [t] (groups ++ [current]) (by simp) ?_
        rw [List.chain'_append]
        refine ⟨hchain, List.chain'_singleton _, ?_⟩
        intro x hx y hy
        simp only [List.head?_cons, Option.mem_def, Option.some_inj] at hy
        subst hy
        rw [List.getLast?_concat] at hx
        simp only [Option.mem_def, Option.some_inj] at hx
        subst hx
        intro p q hp hq
        rw [hlast] at hp
        simp only [Option.some_inj] at hp
        subst hp
        simp only [List.head?_cons, Option.some_inj] at hq
        subst hq
        exact fun hpq => h hpq.symm

/-- Claim C2: group_transactions partitions the bundle's ordered
transaction sequence: concatenating the groups in order yields exactly
the sequence, every group is non-empty with all members sharing one
address, and the last transaction of each group has a different address
from the first transaction of the next group. -/
theorem c2_group_transactions_partition (b : Bundle) :
    (b.group_transactions).flatten = b.transactions
    ∧ (∀ g ∈ b.group_transactions, g ≠ [] ∧
        ∀ x ∈ g, ∀ y ∈ g, x.address = y.address)
    ∧ List.Chain' (fun g h => ∀ x y, g.getLast? = some x →
        h.head? = some y → x.address ≠ y.address) b.group_transactions := by
  unfold Bundle.group_transactions
  rcases hb : b.transactions with _ | ⟨t, rest⟩
  · simp
  · refine ⟨?_, ?_, ?_⟩
    · rw [groupLoop_flatten rest t [t] [] (by simp)]
      simp
    · exact fun g hg => groupLoop_good rest t [t] []
        (by simp) (by simp) (by simp) g hg
    · exact groupLoop_chain rest t [t] [] (by simp)
        (by simp [List.chain'_singleton])

/-- Bundle.tail_transaction: the transaction at index 0; indexing an
empty bundle raises IndexError, modelled as none. -/
def Bundle.tail_transaction (b : Bundle) : Option Transaction :=
  b.transactions.head?

/-- Bundle.hash: the tail transaction's bundle hash; the IndexError an
empty bundle would raise is converted into the absence value. -/
def Bundle.hash (b : Bundle) : Option (List Int) :=
  match b.tail_transaction with
  | some t => some t.bundle_hash
  | none => none

/-- The is_confirmed setter of Bundle: assigns the value to the bundle's
own flag and then to every contained transaction's flag, in order
(the mutation is modelled as a pure state transformer). -/
def Bundle.set_is_confirmed (b : Bundle) (v : Option Bool) : Bundle :=
  { transactions :=
      b.transactions.map (fun t => { t with is_confirmed := v })
    _is_confirmed := v }

/-- Bundle.as_tryte_strings: the wire encodings of the contained
transactions; with head_to_tail false (the source's default) the
internal order is reversed first, with true it is kept.  An encoding
failure propagates as none. -/
def Bundle.as_tryte_strings (b : Bundle) (head_to_tail : Bool) :
    Option (List (List Int)) :=
  (if head_to_tail then b.transactions else b.transactions.reverse).mapM
    Transaction.as_tryte_string

/-- A concrete transaction used to evaluate theorems with hypotheses. -/
def sampleTx : Transaction :=
  { hash := none
    signature_message_fragment := [1]
    address := [0]
    value := 0
    timestamp := 0
    current_index := 0
    last_index := 0
    bundle_hash := [1, 1]
    trunk_transaction_hash := []
    branch_transaction_hash := []
    tag := [0, 1]
    attachment_timestamp := 0
    attachment_timestamp_lower_bound := 0
    attachment_timestamp_upper_bound := 0
    nonce := [] }

/-- Claim C7: setting the bundle's confirmation flag assigns the value
to the bundle's own flag and to the flag of every contained transaction,
preserving the number of transactions; afterwards every contained
transaction's flag reads the value. -/
theorem c7_set_confirmed_cascades (b : Bundle) (v : Option Bool) :
    (b.set_is_confirmed v)._is_confirmed = v
    ∧ (∀ tx ∈ (b.set_is_confirmed v).transactions, tx.is_confirmed = v)
    ∧ (b.set_is_confirmed v).transactions.length =
        b.transactions.length := by
  refine ⟨rfl, ?_, by simp [Bundle.set_is_confirmed]⟩
  intro tx htx
  simp only [Bundle.set_is_confirmed, List.mem_map] at htx
  obtain ⟨t, _, rfl⟩ := htx
  rfl

/-- Claim C8: the hash of a bundle is the tail transaction's bundle_hash
when the bundle is non-empty, and the absence value none (not an error)
exactly when the bundle has no transactions. -/
theorem c8_hash_empty_none (b : Bundle) :
    (b.hash = none ↔ b.transactions = [])
    ∧ ∀ t, b.tail_transaction = some t → b.hash = some t.bundle_hash := by
  constructor
  · unfold Bundle.hash Bundle.tail_transaction
    cases b.transactions <;> simp
  · intro t ht
    unfold Bundle.hash
    rw [ht]

/-- Claim C8 witness: a one-transaction bundle evaluated concretely. -/
theorem c8_hash_empty_none_witness :
    (Bundle.mk [sampleTx] none).tail_transaction = some sampleTx
    ∧ (Bundle.mk [sampleTx] none).hash = some sampleTx.bundle_hash :=
  ⟨rfl, (c8_hash_empty_none (Bundle.mk [sampleTx] none)).2 sampleTx rfl⟩

/-- Claim C9: the legacy_tag accessor returns the explicitly set legacy
tag when one is present, and the transaction's tag otherwise; a
transaction constructed without an explicit legacy tag reads
legacy_tag == tag. -/
theorem c9_legacy_tag_fallback (tx : Transaction) :
    (∀ lt, tx._legacy_tag = some lt → tx.legacy_tag = lt)
    ∧ (tx._legacy_tag = none → tx.legacy_tag = tx.tag) := by
  constructor
  · intro lt h
    simp [Transaction.legacy_tag, h]
  · intro h
    simp [Transaction.legacy_tag, h]

/-- Claim C9 witness: a transaction with an explicit legacy tag and one
built without, both evaluated concretely. -/
theorem c9_legacy_tag_fallback_witness :
    ({ sampleTx with _legacy_tag := some [1] } : Transaction).legacy_tag
      = [1]
    ∧ sampleTx._legacy_tag = none
    ∧ sampleTx.legacy_tag = sampleTx.tag :=
  ⟨(c9_legacy_tag_fallback
      { sampleTx with _legacy_tag := some [1] }).1 [1] rfl,
   rfl, (c9_legacy_tag_fallback sampleTx).2 rfl⟩

theorem mapM_cons_option {α β : Type} (f : α → Option β) (a : α)
    (l : List α) :
    (a :: l).mapM f =
      (f a).bind (fun x => (l.mapM f).map (fun xs => x :: xs)) := by
  rw [List.mapM_cons f]
  cases hf : f a <;> cases hl : l.mapM f <;>
    simp [hf, hl, Option.bind_eq_bind]

theorem mapM_reverse_option {α β : Type} (f : α → Option β) (l : List α) :
    l.reverse.mapM f = (l.mapM f).map List.reverse := by
  induction l with
  | nil => rfl
  | cons a l ih =>
      rw [List.reverse_cons, List.mapM_append f, ih]
      simp only [mapM_cons_option, List.mapM_nil, Option.pure_def]
      cases hf : f a <;> cases hl : l.mapM f <;>
        simp [hf, hl, Option.bind_eq_bind]

/-- Claim C6: when every contained transaction encodes, as_tryte_strings
with head_to_tail true returns the encodings in the bundle's internal
ascending-current_index order unchanged, and with head_to_tail false
(the default) it returns exactly the reverse of that order. -/
theorem c6_as_tryte_strings_order (b : Bundle) (l : List (List Int))
    (h : b.transactions.mapM Transaction.as_tryte_string = some l) :
    b.as_tryte_strings true = some l
    ∧ b.as_tryte_strings false = some l.reverse := by
  constructor
  · show b.transactions.mapM Transaction.as_tryte_string = some l
    exact h
  · show b.transactions.reverse.mapM Transaction.as_tryte_string =
      some l.reverse
    rw [mapM_reverse_option, h]
    rfl

theorem trits_from_int_zero (n : Nat) :
    trits_from_int 0 n = some (List.replicate n 0) := by
  induction n with
  | zero => rfl
  | succ n ih => simp [trits_from_int, balancedDigit, ih, List.replicate_succ]

theorem trits_from_int_one (n : Nat) :
    trits_from_int 1 (n + 1) = some (1 :: List.replicate n 0) := by
  have h1 : balancedDigit 1 = 1 := rfl
  unfold trits_from_int
  rw [h1]
  norm_num [trits_from_int_zero]

/-- The wire body of the all-zero-field transaction, written as the
field-by-field concatenation. -/
def zeroBody : List Int :=
  List.replicate 6561 0 ++ List.replicate 243 0 ++ List.replicate 81 0
    ++ List.replicate 81 0 ++ List.replicate 27 0 ++ List.replicate 27 0
    ++ List.replicate 27 0 ++ List.replicate 243 0 ++ List.replicate 243 0
    ++ List.replicate 243 0 ++ List.replicate 81 0 ++ List.replicate 27 0
    ++ List.replicate 27 0 ++ List.replicate 27 0 ++ List.replicate 81 0

/-- The wire body of the transaction with value 1 and current_index 1,
everything else zero. -/
def oneBody : List Int :=
  List.replicate 6561 0 ++ List.replicate 243 0
    ++ (1 :: List.replicate 80 0) ++ List.replicate 81 0
    ++ List.replicate 27 0 ++ (1 :: List.replicate 26 0)
    ++ List.replicate 27 0 ++ List.replicate 243 0 ++ List.replicate 243 0
    ++ List.replicate 243 0 ++ List.replicate 81 0 ++ List.replicate 27 0
    ++ List.replicate 27 0 ++ List.replicate 27 0 ++ List.replicate 81 0

/-- An all-zero-field transaction whose every numeric field encodes. -/
def encTx0 : Transaction :=
  { hash := none
    signature_message_fragment := List.replicate 6561 0
    address := List.replicate 243 0
    value := 0
    timestamp := 0
    current_index := 0
    last_index := 0
    bundle_hash := List.replicate 243 0
    trunk_transaction_hash := List.replicate 243 0
    branch_transaction_hash := List.replicate 243 0
    tag := List.replicate 81 0
    attachment_timestamp := 0
    attachment_timestamp_lower_bound := 0
    attachment_timestamp_upper_bound := 0
    nonce := List.replicate 81 0 }

/-- Like encTx0 but carrying value 1 at current_index 1. -/
def encTx1 : Transaction :=
  { encTx0 with value := 1, current_index := 1 }

theorem encTx0_encodes : encTx0.as_tryte_string = some zeroBody := by
  simp only [Transaction.as_tryte_string, Transaction.value_as_trytes,
    Transaction.timestamp_as_trytes, Transaction.current_index_as_trytes,
    Transaction.last_index_as_trytes, Transaction.attachment_timestamp_as_trytes,
    Transaction.attachment_timestamp_lower_bound_as_trytes,
    Transaction.attachment_timestamp_upper_bound_as_trytes,
    Transaction.legacy_tag, encTx0, trits_from_int_zero, Option.getD_none,
    Option.bind_eq_bind, Option.some_bind]
  show transactionTrytes zeroBody = some zeroBody
  have hlen : zeroBody.length = TRANSACTION_TRIT_LEN := by
    simp only [zeroBody, List.length_append, List.length_replicate,
      TRANSACTION_TRIT_LEN]
  unfold transactionTrytes
  rw [if_pos hlen]

theorem encTx1_encodes : encTx1.as_tryte_string = some oneBody := by
  have hv : trits_from_int 1 81 = some (1 :: List.replicate 80 0) :=
    trits_from_int_one 80
  have hc : trits_from_int 1 27 = some (1 :: List.replicate 26 0) :=
    trits_from_int_one 26
  simp only [Transaction.as_tryte_string, Transaction.value_as_trytes,
    Transaction.timestamp_as_trytes, Transaction.current_index_as_trytes,
    Transaction.last_index_as_trytes, Transaction.attachment_timestamp_as_trytes,
    Transaction.attachment_timestamp_lower_bound_as_trytes,
    Transaction.attachment_timestamp_upper_bound_as_trytes,
    Transaction.legacy_tag, encTx1, encTx0, trits_from_int_zero, hv, hc,
    Option.getD_none, Option.bind_eq_bind, Option.some_bind]
  show transactionTrytes oneBody = some oneBody
  have hlen : oneBody.length = TRANSACTION_TRIT_LEN := by
    simp only [oneBody, List.length_append, List.length_replicate,
      List.length_cons, TRANSACTION_TRIT_LEN]
  unfold transactionTrytes
  rw [if_pos hlen]

/-- Claim C6 witness: a two-transaction bundle whose members all encode,
evaluated concretely; head_to_tail true keeps the internal order and
false reverses it. -/
theorem c6_as_tryte_strings_order_witness :
    (Bundle.mk [encTx0, encTx1] none).as_tryte_strings true =
      some [zeroBody, oneBody]
    ∧ (Bundle.mk [encTx0, encTx1] none).as_tryte_strings false =
      some ([zeroBody, oneBody]).reverse :=
  c6_as_tryte_strings_order (Bundle.mk [encTx0, encTx1] none)
    [zeroBody, oneBody]
    (by simp only [mapM_cons_option, List.mapM_nil, Option.pure_def,
      encTx0_encodes, encTx1_encodes, Option.bind_eq_bind, Option.some_bind,
      Option.map_some'])

/-- Claim C4: the signature validation payload equals exactly the
concatenation, in this order, of address, value re-encoded at 27 trytes
(81 trits), legacy_tag, and timestamp, current_index and last_index each
at 9 trytes (27 trits) - and nothing else. -/
theorem c4_signature_validation_payload (tx : Transaction)
    (v ts ci li : List Int)
    (hv : trits_from_int tx.value 81 = some v)
    (hts : trits_from_int tx.timestamp 27 = some ts)
    (hci : trits_from_int tx.current_index 27 = some ci)
    (hli : trits_from_int tx.last_index 27 = some li) :
    tx.get_signature_validation_trytes =
      some (tx.address ++ v ++ tx.legacy_tag ++ ts ++ ci ++ li) := by
  simp only [Transaction.get_signature_validation_trytes,
    Transaction.value_as_trytes, Transaction.timestamp_as_trytes,
    Transaction.current_index_as_trytes, Transaction.last_index_as_trytes,
    hv, hts, hci, hli, Option.bind_eq_bind, Option.some_bind]

/-- Claim C4 witness: the payload of the all-zero transaction evaluated
concretely. -/
theorem c4_signature_validation_payload_witness :
    trits_from_int encTx0.value 81 = some (List.replicate 81 0)
    ∧ encTx0.get_signature_validation_trytes =
      some (encTx0.address ++ List.replicate 81 0 ++ encTx0.legacy_tag
        ++ List.replicate 27 0 ++ List.replicate 27 0
        ++ List.replicate 27 0) :=
  ⟨trits_from_int_zero 81,
   c4_signature_validation_payload encTx0 (List.replicate 81 0)
     (List.replicate 27 0) (List.replicate 27 0) (List.replicate 27 0)
     (trits_from_int_zero 81) (trits_from_int_zero 27)
     (trits_from_int_zero 27) (trits_from_int_zero 27)⟩

/-- The closed enumeration of message-decoding error policies accepted
by Bundle.get_messages. -/
inductive ErrorPolicy
  | drop
  | strict
  | replace
  | ignore
deriving Repr, DecidableEq

/-- The concatenated signature/message fragment buffer of an address
group (the message_trytes accumulation loop of get_messages). -/
def groupMessageTrytes (g : List Transaction) : List Int :=
  (g.map Transaction.signature_message_fragment).flatten

/-- The loop of Bundle.get_messages over the address groups.  The text
decoder of the tryte-string collaborator (TryteString.decode, missing
from src/) is abstracted as the function dec from a policy and a buffer
to an optional string, none standing for a TrytesDecodeError or
UnicodeDecodeError.  An empty group (unreachable, since groups are never
empty) would make group[0] raise, modelled as none. -/
def getMessagesLoop (dec : ErrorPolicy → List Int → Option String)
    (errors decode_errors : ErrorPolicy) :
    List (List Transaction) → Option (List String)
  | [] => some []
  | g :: gs =>
      match g with
      | [] => none
      | t :: _ =>
          if t.value < 0 then getMessagesLoop dec errors decode_errors gs
          else if groupMessageTrytes g = [] then
            getMessagesLoop dec errors decode_errors gs
          else
            match dec decode_errors (groupMessageTrytes g) with
            | some s =>
                (getMessagesLoop dec errors decode_errors gs).map
                  (fun ms => s :: ms)
            | none =>
                if errors = ErrorPolicy.drop then
                  getMessagesLoop dec errors decode_errors gs
                else none

/-- Bundle.get_messages: deciphers the messages of the address groups in
order; under drop the decode is attempted with the strict internal mode
and failures are silently omitted, under every other policy the policy
itself is the decode mode and a failure propagates. -/
def Bundle.get_messages (dec : ErrorPolicy → List Int → Option String)
    (b : Bundle) (errors : ErrorPolicy) : Option (List String) :=
  getMessagesLoop dec errors
    (if errors = ErrorPolicy.drop then ErrorPolicy.strict else errors)
    b.group_transactions

/-- The message buffer an address group contributes, if any: skipped
when the group's first transaction has negative value or the
concatenated buffer is empty. -/
def groupBuffer (g : List Transaction) : Option (List Int) :=
  match g with
  | [] => none
  | t :: _ =>
      if t.value < 0 then none
      else if groupMessageTrytes g = [] then none
      else some (groupMessageTrytes g)

/-- The message-bearing buffers of a bundle, in address-group order. -/
def Bundle.relevantBuffers (b : Bundle) : List (List Int) :=
  b.group_transactions.filterMap groupBuffer

theorem group_transactions_ne_nil (b : Bundle) :
    ∀ g ∈ b.group_transactions, g ≠ [] := by
  intro g hg
  unfold Bundle.group_transactions at hg
  rcases hb : b.transactions with _ | ⟨t, rest⟩
  · rw [hb] at hg
    simp at hg
  · rw [hb] at hg
    exact (groupLoop_good rest t [t] [] (by simp) (by simp) (by simp) g hg).1

theorem groupBuffer_cons (t : Transaction) (ts : List Transaction) :
    groupBuffer (t :: ts) =
      if t.value < 0 then none
      else if groupMessageTrytes (t :: ts) = [] then none
      else some (groupMessageTrytes (t :: ts)) := rfl

theorem getMessagesLoop_drop (dec : ErrorPolicy → List Int → Option String)
    (gs : List (List Transaction)) (hne : ∀ g ∈ gs, g ≠ []) :
    getMessagesLoop dec ErrorPolicy.drop ErrorPolicy.strict gs =
      some ((gs.filterMap groupBuffer).filterMap
        (dec ErrorPolicy.strict)) := by
  induction gs with
  | nil => rfl
  | cons g gs ih =>
      have hrest : ∀ x ∈ gs, x ≠ [] := fun x hx => hne x (by simp [hx])
      have ih' := ih hrest
      rcases g with _ | ⟨t, ts⟩
      · exact absurd rfl (hne [] (by simp))
      · by_cases hv : t.value < 0
        · have hgb : groupBuffer (t :: ts) = none := by
            rw [groupBuffer_cons, if_pos hv]
          rw [getMessagesLoop, if_pos hv, List.filterMap_cons_none hgb, ih']
        · by_cases hb : groupMessageTrytes (t :: ts) = []
          · have hgb : groupBuffer (t :: ts) = none := by
              rw [groupBuffer_cons, if_neg hv, if_pos hb]
            rw [getMessagesLoop, if_neg hv, if_pos hb,
              List.filterMap_cons_none hgb, ih']
          · have hgb : groupBuffer (t :: ts) =
                some (groupMessageTrytes (t :: ts)) := by
              rw [groupBuffer_cons, if_neg hv, if_neg hb]
            rw [getMessagesLoop, if_neg hv, if_neg hb,
              List.filterMap_cons_some hgb]
            cases hd : dec ErrorPolicy.strict (groupMessageTrytes (t :: ts))
            · rw [List.filterMap_cons_none hd, if_pos rfl, ih']
            · rw [List.filterMap_cons_some hd, ih']
              rfl

theorem getMessagesLoop_nondrop
    (dec : ErrorPolicy → List Int → Option String) (pol : ErrorPolicy)
    (hpol : pol ≠ ErrorPolicy.drop)
    (gs : List (List Transaction)) (hne : ∀ g ∈ gs, g ≠ []) :
    getMessagesLoop dec pol pol gs =
      (gs.filterMap groupBuffer).mapM (dec pol) := by
  induction gs with
  | nil => rfl
  | cons g gs ih =>
      have hrest : ∀ x ∈ gs, x ≠ [] := fun x hx => hne x (by simp [hx])
      have ih' := ih hrest
      rcases g with _ | ⟨t, ts⟩
      · exact absurd rfl (hne [] (by simp))
      · by_cases hv : t.value < 0
        · have hgb : groupBuffer (t :: ts) = none := by
            rw [groupBuffer_cons, if_pos hv]
          rw [getMessagesLoop, if_pos hv, List.filterMap_cons_none hgb, ih']
        · by_cases hb : groupMessageTrytes (t :: ts) = []
          · have hgb : groupBuffer (t :: ts) = none := by
              rw [groupBuffer_cons, if_neg hv, if_pos hb]
            rw [getMessagesLoop, if_neg hv, if_pos hb,
              List.filterMap_cons_none hgb, ih']
          · have hgb : groupBuffer (t :: ts) =
                some (groupMessageTrytes (t :: ts)) := by
              rw [groupBuffer_cons, if_neg hv, if_neg hb]
            rw [getMessagesLoop, if_neg hv, if_neg hb,
              List.filterMap_cons_some hgb, mapM_cons_option]
            cases hd : dec pol (groupMessageTrytes (t :: ts))
            · dsimp only
              rw [if_neg hpol, Option.none_bind]
            · dsimp only
              rw [ih', Option.some_bind]

/-- Claim C5: get_messages processes the address groups in order,
skipping any group whose first transaction has negative value (and any
group with an empty buffer); under drop the buffers are decoded with the
strict internal mode and failures are silently omitted (get_messages
always succeeds), while under every other policy the first decode
failure propagates to the caller (mapM over the buffers). -/
theorem c5_get_messages_policy
    (dec : ErrorPolicy → List Int → Option String) (b : Bundle)
    (pol : ErrorPolicy) :
    b.get_messages dec pol =
      if pol = ErrorPolicy.drop then
        some (b.relevantBuffers.filterMap (dec ErrorPolicy.strict))
      else b.relevantBuffers.mapM (dec pol) := by
  unfold Bundle.get_messages Bundle.relevantBuffers
  by_cases h : pol = ErrorPolicy.drop
  · subst h
    rw [if_pos rfl, if_pos rfl]
    exact getMessagesLoop_drop dec _ (group_transactions_ne_nil b)
  · rw [if_neg h, if_neg h]
    exact getMessagesLoop_nondrop dec pol h _ (group_transactions_ne_nil b)

theorem groupBuffer_ne_nil {g : List Transaction} {buf : List Int}
    (h : groupBuffer g = some buf) : buf ≠ [] := by
  rcases g with _ | ⟨t, ts⟩
  · simp [groupBuffer] at h
  · rw [groupBuffer_cons] at h
    by_cases hv : t.value < 0
    · rw [if_pos hv] at h
      simp at h
    · rw [if_neg hv] at h
      by_cases hb : groupMessageTrytes (t :: ts) = []
      · rw [if_pos hb] at h
        simp at h
      · rw [if_neg hb] at h
        simp only [Option.some_inj] at h
        rw [← h]
        exact hb

/-- Claim C10: under the drop policy every recovered message comes from
the strict decode of some whole non-empty group buffer: a buffer that
strict decoding cannot handle contributes nothing (never a partial
decode), and an empty buffer contributes no entry at all. -/
theorem c10_drop_full_or_nothing
    (dec : ErrorPolicy → List Int → Option String) (b : Bundle)
    (l : List String) (s : String)
    (h1 : b.get_messages dec ErrorPolicy.drop = some l) (h2 : s ∈ l) :
    ∃ buf ∈ b.relevantBuffers, buf ≠ [] ∧
      dec ErrorPolicy.strict buf = some s := by
  have hchar := getMessagesLoop_drop dec b.group_transactions
    (group_transactions_ne_nil b)
  unfold Bundle.get_messages at h1
  rw [if_pos rfl, hchar] at h1
  simp only [Option.some_inj] at h1
  rw [← h1] at h2
  obtain ⟨buf, hbuf, hdec⟩ := List.mem_filterMap.mp h2
  refine ⟨buf, hbuf, ?_, hdec⟩
  obtain ⟨g, _, hgb⟩ := List.mem_filterMap.mp hbuf
  exact groupBuffer_ne_nil hgb

/-- A decoder that succeeds only in strict mode on the buffer [1],
used to evaluate the drop-policy theorem concretely. -/
def strictOnlyDec (m : ErrorPolicy) (buf : List Int) : Option String :=
  if m = ErrorPolicy.strict then
    (if buf = [1] then some "HI" else none)
  else some "PARTIAL"

/-- Claim C10 witness: a one-group bundle whose buffer strict-decodes to
HI, evaluated concretely under the drop policy. -/
theorem c10_drop_full_or_nothing_witness :
    ∃ buf ∈ (Bundle.mk [sampleTx] none).relevantBuffers,
      buf ≠ [] ∧ strictOnlyDec ErrorPolicy.strict buf = some "HI" :=
  c10_drop_full_or_nothing strictOnlyDec (Bundle.mk [sampleTx] none)
    ["HI"] "HI" (by rfl) (by simp)

/-- Claim C2 witness: the grouping theorem evaluated on a concrete
one-transaction bundle, with the membership hypotheses discharged
concretely. -/
theorem c2_group_transactions_partition_witness :
    (Bundle.mk [sampleTx] none).group_transactions.flatten =
      (Bundle.mk [sampleTx] none).transactions
    ∧ ([sampleTx] ≠ [] ∧
        ∀ x ∈ [sampleTx], ∀ y ∈ [sampleTx], x.address = y.address) :=
  ⟨(c2_group_transactions_partition (Bundle.mk [sampleTx] none)).1,
   (c2_group_transactions_partition (Bundle.mk [sampleTx] none)).2.1
     [sampleTx]
     (by show [sampleTx] ∈ [[sampleTx]]; simp)⟩

/-- Claim C7 witness: the confirmation cascade evaluated on a concrete
one-transaction bundle, with the membership hypothesis discharged
concretely. -/
theorem c7_set_confirmed_cascades_witness :
    ((Bundle.mk [sampleTx] none).set_is_confirmed
      (some true))._is_confirmed = some true
    ∧ ({ sampleTx with is_confirmed := some true } :
        Transaction).is_confirmed = some true :=
  ⟨(c7_set_confirmed_cascades (Bundle.mk [sampleTx] none) (some true)).1,
   (c7_set_confirmed_cascades (Bundle.mk [sampleTx] none)
       (some true)).2.1
     { sampleTx with is_confirmed := some true }
     (by show _ ∈ [({ sampleTx with is_confirmed := some true } :
         Transaction)]; simp)⟩
